import Mathlib

/-!
# Ferrofluid shader: a shallow embedding of `FerrofluidShader.js`

The fragment shader (`random`, `noise`, `fbm`, `main`) and the host-side
handlers (`handleResize`, `handleMouseMove`, the `useFrame` callback) are
translated into Lean functions over an arbitrary linearly ordered field with a
floor function.  Shader floats and JavaScript numbers are read as exact
numbers of that field; rounding is not modelled.

The GLSL built-ins `floor`, `fract`, `dot`, `mix`, `clamp`, `smoothstep`,
`length` and `distance` are written out as the GLSL specification defines
them.  The built-ins `sin` and `sqrt` are parameters of the definitions that
use them.  Instantiated at `ℚ` every definition evaluates; instantiated at `ℝ`
with `Real.sin` and `Real.sqrt` they give the shader over the reals.  A float
literal with an integer value, such as `2.0`, may appear as the numeral `2`.

Layout: the shader, the host component, the specification's wording of
`noise`; then lemmas on the built-ins, on `random`, `noise` and `fbm`, and on
the shader over the reals; then one theorem per claim.
-/

namespace Ferrofluid

/-! ## Vectors -/

/-- GLSL `vec2`. -/
@[ext] structure Vec2 (α : Type) where
  x : α
  y : α
deriving DecidableEq

/-- GLSL `vec3`. -/
@[ext] structure Vec3 (α : Type) where
  x : α
  y : α
  z : α
deriving DecidableEq

/-- GLSL `vec4`. -/
@[ext] structure Vec4 (α : Type) where
  x : α
  y : α
  z : α
  w : α
deriving DecidableEq

section Shader

variable {α : Type} [LinearOrderedField α] [FloorRing α]

/-! ## GLSL built-ins -/

/-- GLSL `floor` on a float. -/
def floor (x : α) : α := ((⌊x⌋ : ℤ) : α)

/-- GLSL `fract`: `x - floor(x)`. -/
def fract (x : α) : α := x - floor x

/-- GLSL `dot` on `vec2`. -/
def dot (a b : Vec2 α) : α := a.x * b.x + a.y * b.y

/-- GLSL `mix(x, y, a) = x * (1 - a) + y * a`. -/
def mix (x y a : α) : α := x * (1 - a) + y * a

/-- GLSL `mix` on `vec3` with a float weight. -/
def mix3 (x y : Vec3 α) (a : α) : Vec3 α :=
  ⟨mix x.x y.x a, mix x.y y.y a, mix x.z y.z a⟩

/-- GLSL `clamp(x, lo, hi) = min(max(x, lo), hi)`. -/
def clamp (x lo hi : α) : α := min (max x lo) hi

/-- GLSL `smoothstep(e0, e1, x)`. -/
def smoothstep (e0 e1 x : α) : α :=
  let t := clamp ((x - e0) / (e1 - e0)) 0 1
  t * t * (3 - 2 * t)

/-- GLSL `length` on `vec2`, over the built-in `sqrt`. -/
def length (sqrt : α → α) (v : Vec2 α) : α := sqrt (v.x * v.x + v.y * v.y)

/-- GLSL `length` on a float: `sqrt(x * x)`. -/
def length1 (sqrt : α → α) (x : α) : α := sqrt (x * x)

/-- GLSL `distance(p0, p1) = length(p0 - p1)`. -/
def distance (sqrt : α → α) (p0 p1 : Vec2 α) : α :=
  length sqrt ⟨p0.x - p1.x, p0.y - p1.y⟩

/-! ## The fragment shader -/

/-- `#define OCTAVES 6`. -/
def OCTAVES : Nat := 6

/-- Shader function `random`:
`fract(sin(dot(st.xy, vec2(12.9898, 78.233))) * 43758.5453123)`. -/
def random (sin : α → α) (st : Vec2 α) : α :=
  fract (sin (dot st ⟨12.9898, 78.233⟩) * 43758.5453123)

/-- The body of `noise` after `i = floor(st)` and `f = fract(st)`: the
interpolation formula of the lattice cell with lower corner `i`, at the
fractional part `f`. -/
def noiseCell (sin : α → α) (i f : Vec2 α) : α :=
  let a := random sin i
  let b := random sin ⟨i.x + 1, i.y + 0⟩
  let c := random sin ⟨i.x + 0, i.y + 1⟩
  let d := random sin ⟨i.x + 1, i.y + 1⟩
  let u : Vec2 α := ⟨f.x * f.x * (3 - 2 * f.x), f.y * f.y * (3 - 2 * f.y)⟩
  mix a b u.x + (c - a) * u.y * (1 - u.x) + (d - b) * u.x * u.y

/-- Shader function `noise`. -/
def noise (sin : α → α) (st : Vec2 α) : α :=
  let i : Vec2 α := ⟨floor st.x, floor st.y⟩
  let f : Vec2 α := ⟨fract st.x, fract st.y⟩
  noiseCell sin i f

/-- The variables of the loop of `fbm`. -/
structure FbmState (α : Type) where
  value : α
  amplitude : α
  st : Vec2 α

/-- One iteration of the loop of `fbm`. -/
def fbmStep (sin : α → α) (s : FbmState α) : FbmState α :=
  { value := s.value + s.amplitude * noise sin s.st
    st := ⟨s.st.x * 2, s.st.y * 2⟩
    amplitude := s.amplitude * 0.5 }

/-- The loop of `fbm` after `n` iterations. -/
def fbmLoop (sin : α → α) (st : Vec2 α) (n : Nat) : FbmState α :=
  (fbmStep sin)^[n] { value := 0, amplitude := 0.5, st := st }

/-- Shader function `fbm`. -/
def fbm (sin : α → α) (st : Vec2 α) : α :=
  (fbmLoop sin st OCTAVES).value

/-- The working coordinate `st` of `main` before the aspect correction. -/
def main_st0 (fragCoord resolution : Vec2 α) : Vec2 α :=
  ⟨fragCoord.x / resolution.x, fragCoord.y / resolution.y⟩

/-- The working coordinate `st` of `main`, after `st.x *= resolution.x / resolution.y`. -/
def main_st (fragCoord resolution : Vec2 α) : Vec2 α :=
  let st := main_st0 fragCoord resolution
  ⟨st.x * (resolution.x / resolution.y), st.y⟩

/-- `mousePos = mouse / resolution`. -/
def main_mousePos (mouse resolution : Vec2 α) : Vec2 α :=
  ⟨mouse.x / resolution.x, mouse.y / resolution.y⟩

/-- `dist = distance(st, mousePos)`. -/
def main_dist (sqrt : α → α) (fragCoord mouse resolution : Vec2 α) : α :=
  distance sqrt (main_st fragCoord resolution) (main_mousePos mouse resolution)

/-- The first warp vector `q` of `main`. -/
def main_q (sin : α → α) (st : Vec2 α) (time : α) : Vec2 α :=
  ⟨fbm sin ⟨st.x + 0.1 * time, st.y + 0.1 * time⟩,
   fbm sin ⟨st.x + 1.0, st.y + 1.0⟩⟩

/-- The second warp vector `r` of `main`. -/
def main_r (sin : α → α) (st : Vec2 α) (time : α) : Vec2 α :=
  let q := main_q sin st time
  ⟨fbm sin ⟨st.x + 1.0 * q.x + 1.7 + 0.15 * time, st.y + 1.0 * q.y + 9.2 + 0.15 * time⟩,
   fbm sin ⟨st.x + 1.0 * q.x + 8.3 + 0.126 * time, st.y + 1.0 * q.y + 2.8 + 0.126 * time⟩⟩

/-- The field value `f = fbm(st + r)` of `main`, before the pointer term. -/
def main_f0 (sin : α → α) (st : Vec2 α) (time : α) : α :=
  let r := main_r sin st time
  fbm sin ⟨st.x + r.x, st.y + r.y⟩

/-- The pointer term of `main`: `mix(f, f * 0.5, smoothstep(0.0, 0.3, dist))`. -/
def attenuate (f dist : α) : α :=
  mix f (f * 0.5) (smoothstep 0.0 0.3 dist)

/-- The field value `f` that `main` uses after the pointer term. -/
def main_f (sin sqrt : α → α) (fragCoord : Vec2 α) (time : α) (mouse resolution : Vec2 α) : α :=
  attenuate (main_f0 sin (main_st fragCoord resolution) time)
    (main_dist sqrt fragCoord mouse resolution)

/-- The three successive colour blends of `main`. -/
def main_color (sqrt : α → α) (f : α) (q r : Vec2 α) : Vec3 α :=
  let color := mix3 ⟨0.101961, 0.619608, 0.666667⟩ ⟨0.666667, 0.666667, 0.498039⟩
    (clamp ((f * f) * 4.0) 0.0 1.0)
  let color := mix3 color ⟨0, 0, 0.164706⟩ (clamp (length sqrt q) 0.0 1.0)
  let color := mix3 color ⟨0.666667, 1, 1⟩ (clamp (length1 sqrt r.x) 0.0 1.0)
  color

/-- The fragment shader's `main`: the value written to `gl_FragColor` for the
pixel `fragCoord` under the uniforms `time`, `mouse`, `resolution`. -/
def main (sin sqrt : α → α) (fragCoord : Vec2 α) (time : α) (mouse resolution : Vec2 α) :
    Vec4 α :=
  let st := main_st fragCoord resolution
  let q := main_q sin st time
  let r := main_r sin st time
  let f := main_f sin sqrt fragCoord time mouse resolution
  let color := main_color sqrt f q r
  let m := f * f * f + 0.6 * f * f + 0.5 * f
  ⟨m * color.x, m * color.y, m * color.z, 1.0⟩

end Shader

/-! ## The host component `FerrofluidShader` -/

section Host

variable {α : Type} [LinearOrderedField α]

/-- The uniforms of the material: `time`, `mouse`, `resolution`. -/
@[ext] structure Uniforms (α : Type) where
  time : α
  mouse : Vec2 α
  resolution : Vec2 α
deriving DecidableEq

/-- The mutable state the handlers of `FerrofluidShader` read and write:
whether `mesh.current && mesh.current.material` holds, the React state
`mousePosition`, and the uniforms of the material. -/
@[ext] structure Host (α : Type) where
  meshReady : Bool
  mousePosition : Vec2 α
  uniforms : Uniforms α
deriving DecidableEq

/-- The state on first render: `mousePosition = [0, 0]` and the uniforms built
by `useMemo` from `size = (width, height)`. -/
def initial (meshReady : Bool) (size : Vec2 α) : Host α :=
  { meshReady := meshReady
    mousePosition := ⟨0, 0⟩
    uniforms := { time := 0, mouse := ⟨0, 0⟩, resolution := ⟨size.x, size.y⟩ } }

/-- Handler `handleResize`, with `window.innerWidth` and `window.innerHeight`
as read when it runs. -/
def handleResize (innerWidth innerHeight : α) (s : Host α) : Host α :=
  if s.meshReady then
    { s with uniforms := { s.uniforms with resolution := ⟨innerWidth, innerHeight⟩ } }
  else s

/-- The pair `handleMouseMove` passes to `setMousePosition`. -/
def mouseNDC (clientX clientY innerWidth innerHeight : α) : Vec2 α :=
  ⟨(clientX / innerWidth) * 2 - 1, -(clientY / innerHeight) * 2 + 1⟩

/-- Handler `handleMouseMove`. -/
def handleMouseMove (clientX clientY innerWidth innerHeight : α) (s : Host α) : Host α :=
  { s with mousePosition := mouseNDC clientX clientY innerWidth innerHeight }

/-- The callback given to `useFrame`, with `clock.getElapsedTime()` as read
when it runs. -/
def useFrame (elapsedTime : α) (s : Host α) : Host α :=
  if s.meshReady then
    { s with uniforms :=
        { s.uniforms with time := elapsedTime, mouse := ⟨s.mousePosition.x, s.mousePosition.y⟩ } }
  else s

/-- What can happen to the component between two renders. -/
inductive Event (α : Type) where
  /-- A `resize` event, with the window's inner size. -/
  | resize (innerWidth innerHeight : α)
  /-- A `mousemove` event at `(clientX, clientY)`, with the window's inner size. -/
  | mouseMove (clientX clientY innerWidth innerHeight : α)
  /-- A rendered frame, with the clock's elapsed time. -/
  | frame (elapsedTime : α)
  /-- The ref `mesh` is attached or detached. -/
  | setMesh (ready : Bool)

/-- The effect of one event on the state. -/
def step (s : Host α) : Event α → Host α
  | .resize w h => handleResize w h s
  | .mouseMove x y w h => handleMouseMove x y w h s
  | .frame t => useFrame t s
  | .setMesh b => { s with meshReady := b }

/-- The state after a list of events, oldest first. -/
def run (s : Host α) (es : List (Event α)) : Host α := es.foldl step s

/-- A pointer event whose raw coordinates lie inside the window. -/
def Event.inWindow : Event α → Prop
  | .mouseMove x y w h => 0 < w ∧ 0 < h ∧ 0 ≤ x ∧ x ≤ w ∧ 0 ≤ y ∧ y ≤ h
  | _ => True

instance Event.decidableInWindow (e : Event α) : Decidable e.inWindow := by
  cases e <;> unfold Event.inWindow <;> infer_instance

/-- Both components of a vector lie in `[-1, 1]`. -/
def inNDC (v : Vec2 α) : Prop := -1 ≤ v.x ∧ v.x ≤ 1 ∧ -1 ≤ v.y ∧ v.y ≤ 1

instance inNDC.decidable (v : Vec2 α) : Decidable (inNDC v) := by
  unfold inNDC
  infer_instance

end Host

/-! ## The specification's description of `noise` -/

section SpecSide

variable {α : Type} [LinearOrderedField α] [FloorRing α]

/-- The four weights of bilinear interpolation at the eased fractional part
`u`, in the order of the corners `(0,0)`, `(1,0)`, `(0,1)`, `(1,1)`. -/
def bilinearWeights (u : Vec2 α) : List α :=
  [(1 - u.x) * (1 - u.y), u.x * (1 - u.y), (1 - u.x) * u.y, u.x * u.y]

/-- The eased fractional part of the specification: `3t² - 2t³` on each
component of `fract(p)`. -/
def easedFract (p : Vec2 α) : Vec2 α :=
  ⟨3 * fract p.x ^ 2 - 2 * fract p.x ^ 3, 3 * fract p.y ^ 2 - 2 * fract p.y ^ 3⟩

/-- The noise function as the specification words it: 4-corner bilinear
interpolation of `random` at the lattice points around `p`, eased by
`3t² - 2t³`. -/
def noiseBilinear (sin : α → α) (p : Vec2 α) : α :=
  let i : Vec2 α := ⟨floor p.x, floor p.y⟩
  let u := easedFract p
  let a := random sin i
  let b := random sin ⟨i.x + 1, i.y + 0⟩
  let c := random sin ⟨i.x + 0, i.y + 1⟩
  let d := random sin ⟨i.x + 1, i.y + 1⟩
  (1 - u.x) * (1 - u.y) * a + u.x * (1 - u.y) * b + (1 - u.x) * u.y * c + u.x * u.y * d

end SpecSide

/-! ## Built-ins, the pointer term and the colour blends -/

section FieldLemmas

variable {α : Type} [LinearOrderedField α]

theorem clamp_zero_one_nonneg (x : α) : 0 ≤ clamp x 0 1 := by
  unfold clamp
  exact le_min (le_max_right _ _) zero_le_one

theorem clamp_zero_one_le (x : α) : clamp x 0 1 ≤ 1 := by
  unfold clamp
  exact min_le_right _ _

theorem clamp_lit_nonneg (x : α) : 0 ≤ clamp x 0.0 1.0 := by
  unfold clamp
  refine le_min (le_trans (by norm_num) (le_max_right _ _)) (by norm_num)

theorem clamp_lit_le (x : α) : clamp x 0.0 1.0 ≤ 1 := by
  unfold clamp
  exact le_trans (min_le_right _ _) (by norm_num)

theorem clamp_zero_one_of_nonpos {x : α} (hx : x ≤ 0) : clamp x 0 1 = 0 := by
  unfold clamp
  rw [max_eq_right hx]
  exact min_eq_left zero_le_one

theorem clamp_zero_one_of_one_le {x : α} (hx : 1 ≤ x) : clamp x 0 1 = 1 := by
  unfold clamp
  rw [max_eq_left (le_trans zero_le_one hx)]
  exact min_eq_right hx

/-- Hermite easing maps `[0, 1)` into `[0, 1)`. -/
theorem hermite_nonneg {t : α} (h0 : 0 ≤ t) (h1 : t ≤ 1) : 0 ≤ t * t * (3 - 2 * t) := by
  have : 0 ≤ 3 - 2 * t := by linarith
  positivity

theorem hermite_le_one {t : α} (h0 : 0 ≤ t) (_h1 : t ≤ 1) : t * t * (3 - 2 * t) ≤ 1 := by
  nlinarith [mul_nonneg (mul_self_nonneg (1 - t)) (by linarith : (0:α) ≤ 1 + 2 * t)]

theorem hermite_lt_one {t : α} (h0 : 0 ≤ t) (h1 : t < 1) : t * t * (3 - 2 * t) < 1 := by
  nlinarith [mul_pos (mul_pos (sub_pos.mpr h1) (sub_pos.mpr h1)) (by linarith : (0:α) < 1 + 2 * t)]

theorem hermite_pos {t : α} (h0 : 0 < t) (h1 : t ≤ 1) : 0 < t * t * (3 - 2 * t) := by
  have : 0 < 3 - 2 * t := by linarith
  positivity

theorem convex4_lt_one {w1 w2 w3 w4 a b c d : α} (h1 : 0 ≤ w1) (h2 : 0 ≤ w2) (h3 : 0 ≤ w3)
    (h4 : 0 ≤ w4) (hs : w1 + w2 + w3 + w4 = 1) (ha : a < 1) (hb : b < 1) (hc : c < 1)
    (hd : d < 1) : w1 * a + w2 * b + w3 * c + w4 * d < 1 := by
  have hM : max (max a b) (max c d) < 1 := max_lt (max_lt ha hb) (max_lt hc hd)
  have e1 : w1 * a ≤ w1 * max (max a b) (max c d) :=
    mul_le_mul_of_nonneg_left (le_trans (le_max_left a b) (le_max_left _ _)) h1
  have e2 : w2 * b ≤ w2 * max (max a b) (max c d) :=
    mul_le_mul_of_nonneg_left (le_trans (le_max_right a b) (le_max_left _ _)) h2
  have e3 : w3 * c ≤ w3 * max (max a b) (max c d) :=
    mul_le_mul_of_nonneg_left (le_trans (le_max_left c d) (le_max_right _ _)) h3
  have e4 : w4 * d ≤ w4 * max (max a b) (max c d) :=
    mul_le_mul_of_nonneg_left (le_trans (le_max_right c d) (le_max_right _ _)) h4
  have e5 : (w1 + w2 + w3 + w4) * max (max a b) (max c d) = max (max a b) (max c d) := by
    rw [hs, one_mul]
  linarith

theorem smoothstep_nonneg (e0 e1 x : α) : 0 ≤ smoothstep e0 e1 x :=
  hermite_nonneg (clamp_zero_one_nonneg _) (clamp_zero_one_le _)

theorem smoothstep_le_one (e0 e1 x : α) : smoothstep e0 e1 x ≤ 1 :=
  hermite_le_one (clamp_zero_one_nonneg _) (clamp_zero_one_le _)

/-- The ramp of the pointer term is `0` up to distance `0`. -/
theorem smoothstep_ramp_of_nonpos {d : α} (hd : d ≤ 0) : smoothstep (0.0 : α) 0.3 d = 0 := by
  have h : (d - 0.0) / (0.3 - 0.0) ≤ 0 :=
    div_nonpos_of_nonpos_of_nonneg (by norm_num; exact hd) (by norm_num)
  simp only [smoothstep, clamp_zero_one_of_nonpos h]
  ring

/-- The ramp of the pointer term is `1` from distance `0.3` on. -/
theorem smoothstep_ramp_of_le {d : α} (hd : 0.3 ≤ d) : smoothstep (0.0 : α) 0.3 d = 1 := by
  have h : 1 ≤ (d - 0.0) / (0.3 - 0.0) := by
    norm_num at hd ⊢
    rw [le_div_iff₀ (by norm_num)]
    linarith
  simp only [smoothstep, clamp_zero_one_of_one_le h]
  ring

theorem mix_nonneg {x y a : α} (hx : 0 ≤ x) (hy : 0 ≤ y) (ha0 : 0 ≤ a) (ha1 : a ≤ 1) :
    0 ≤ mix x y a := by
  unfold mix
  exact add_nonneg (mul_nonneg hx (by linarith)) (mul_nonneg hy ha0)

theorem mix_le_one {x y a : α} (hx : x ≤ 1) (hy : y ≤ 1) (ha0 : 0 ≤ a) (ha1 : a ≤ 1) :
    mix x y a ≤ 1 := by
  unfold mix
  have h1 : x * (1 - a) ≤ 1 * (1 - a) := mul_le_mul_of_nonneg_right hx (by linarith)
  have h2 : y * a ≤ 1 * a := mul_le_mul_of_nonneg_right hy ha0
  linarith

theorem attenuate_eq (f dist : α) :
    attenuate f dist = f * (1 - smoothstep 0.0 0.3 dist / 2) := by
  simp only [attenuate, mix]
  norm_num
  ring

theorem attenuate_nonneg {f : α} (hf : 0 ≤ f) (dist : α) : 0 ≤ attenuate f dist := by
  rw [attenuate_eq]
  have := smoothstep_le_one (0.0 : α) 0.3 dist
  exact mul_nonneg hf (by linarith)

theorem attenuate_le {f : α} (hf : 0 ≤ f) (dist : α) : attenuate f dist ≤ f := by
  rw [attenuate_eq]
  have := smoothstep_nonneg (0.0 : α) 0.3 dist
  nlinarith

theorem attenuate_of_nonpos (f : α) {d : α} (hd : d ≤ 0) : attenuate f d = f := by
  rw [attenuate_eq, smoothstep_ramp_of_nonpos hd]
  ring

theorem attenuate_of_le (f : α) {d : α} (hd : 0.3 ≤ d) : attenuate f d = 0.5 * f := by
  rw [attenuate_eq, smoothstep_ramp_of_le hd]
  norm_num
  ring

/-- Every component of the blended colour is in `[0, 1]`, whatever `sqrt` returns. -/
theorem main_color_range (sqrt : α → α) (f : α) (q r : Vec2 α) :
    (0 ≤ (main_color sqrt f q r).x ∧ (main_color sqrt f q r).x ≤ 1)
    ∧ (0 ≤ (main_color sqrt f q r).y ∧ (main_color sqrt f q r).y ≤ 1)
    ∧ (0 ≤ (main_color sqrt f q r).z ∧ (main_color sqrt f q r).z ≤ 1) := by
  have a0 := clamp_lit_nonneg ((f * f) * 4.0)
  have a1 := clamp_lit_le ((f * f) * 4.0)
  have b0 := clamp_lit_nonneg (length sqrt q)
  have b1 := clamp_lit_le (length sqrt q)
  have c0 := clamp_lit_nonneg (length1 sqrt r.x)
  have c1 := clamp_lit_le (length1 sqrt r.x)
  simp only [main_color, mix3]
  refine ⟨⟨?_, ?_⟩, ⟨?_, ?_⟩, ⟨?_, ?_⟩⟩
  · exact mix_nonneg (mix_nonneg (mix_nonneg (by norm_num) (by norm_num) a0 a1)
      (by norm_num) b0 b1) (by norm_num) c0 c1
  · exact mix_le_one (mix_le_one (mix_le_one (by norm_num) (by norm_num) a0 a1)
      (by norm_num) b0 b1) (by norm_num) c0 c1
  · exact mix_nonneg (mix_nonneg (mix_nonneg (by norm_num) (by norm_num) a0 a1)
      (by norm_num) b0 b1) (by norm_num) c0 c1
  · exact mix_le_one (mix_le_one (mix_le_one (by norm_num) (by norm_num) a0 a1)
      (by norm_num) b0 b1) (by norm_num) c0 c1
  · exact mix_nonneg (mix_nonneg (mix_nonneg (by norm_num) (by norm_num) a0 a1)
      (by norm_num) b0 b1) (by norm_num) c0 c1
  · exact mix_le_one (mix_le_one (mix_le_one (by norm_num) (by norm_num) a0 a1)
      (by norm_num) b0 b1) (by norm_num) c0 c1

theorem multiplier_range {f : α} (h0 : 0 ≤ f) (h1 : f ≤ 63 / 64) :
    0 ≤ f * f * f + 0.6 * f * f + 0.5 * f ∧ f * f * f + 0.6 * f * f + 0.5 * f ≤ 3 := by
  have hf1 : f ≤ 1 := le_trans h1 (by norm_num)
  have h2 : f * f ≤ 1 := by nlinarith
  have h3 : f * f * f ≤ 1 := by nlinarith [mul_nonneg h0 h0]
  have h4 : 0 ≤ f * f := mul_nonneg h0 h0
  have h5 : 0 ≤ f * f * f := mul_nonneg h4 h0
  constructor
  · norm_num
    nlinarith
  · norm_num
    nlinarith

theorem scaled_range {m c : α} (hm0 : 0 ≤ m) (hm1 : m ≤ 3) (hc0 : 0 ≤ c) (hc1 : c ≤ 1) :
    0 ≤ m * c ∧ m * c ≤ 3 := by
  refine ⟨mul_nonneg hm0 hc0, ?_⟩
  nlinarith

end FieldLemmas

/-! ## The pointer position under the handlers -/

section HostLemmas

variable {α : Type} [LinearOrderedField α]

theorem mouseNDC_inNDC {x y w h : α} (hw : 0 < w) (hh : 0 < h) (hx0 : 0 ≤ x) (hx1 : x ≤ w)
    (hy0 : 0 ≤ y) (hy1 : y ≤ h) : inNDC (mouseNDC x y w h) := by
  have a0 : 0 ≤ x / w := div_nonneg hx0 hw.le
  have a1 : x / w ≤ 1 := (div_le_one hw).mpr hx1
  have b0 : 0 ≤ y / h := div_nonneg hy0 hh.le
  have b1 : y / h ≤ 1 := (div_le_one hh).mpr hy1
  simp only [inNDC, mouseNDC]
  refine ⟨by linarith, by linarith, by linarith, by linarith⟩

theorem inNDC_zero : inNDC (⟨0, 0⟩ : Vec2 α) := by
  simp [inNDC]

theorem step_inNDC (s : Host α) (e : Event α) (he : e.inWindow)
    (h : inNDC s.mousePosition ∧ inNDC s.uniforms.mouse) :
    inNDC (step s e).mousePosition ∧ inNDC (step s e).uniforms.mouse := by
  cases e with
  | resize w h' =>
    simp only [step, handleResize]
    split <;> exact h
  | mouseMove x y w h' =>
    obtain ⟨hw, hh, hx0, hx1, hy0, hy1⟩ := he
    exact ⟨mouseNDC_inNDC hw hh hx0 hx1 hy0 hy1, h.2⟩
  | frame t =>
    simp only [step, useFrame]
    split
    · exact ⟨h.1, h.1⟩
    · exact h
  | setMesh b => exact h

theorem run_inNDC (es : List (Event α)) (s : Host α) (hes : ∀ e ∈ es, e.inWindow)
    (h : inNDC s.mousePosition ∧ inNDC s.uniforms.mouse) :
    inNDC (run s es).mousePosition ∧ inNDC (run s es).uniforms.mouse := by
  induction es generalizing s with
  | nil => exact h
  | cons e es ih =>
    simp only [run, List.foldl_cons]
    exact ih (step s e) (fun e' he' => hes e' (List.mem_cons_of_mem _ he'))
      (step_inNDC s e (hes e (List.mem_cons_self _ _)) h)

end HostLemmas

/-! ## `random`, `noise` and `fbm` -/

section NoiseLemmas

variable {α : Type} [LinearOrderedField α] [FloorRing α]

theorem fract_nonneg (x : α) : 0 ≤ fract x := by
  unfold fract floor
  exact sub_nonneg.mpr (Int.floor_le x)

theorem fract_lt_one (x : α) : fract x < 1 := by
  unfold fract floor
  have := Int.lt_floor_add_one x
  linarith

theorem floor_of_unit {x : α} (h0 : 0 ≤ x) (h1 : x < 1) : floor x = 0 := by
  unfold floor
  have : ⌊x⌋ = 0 := Int.floor_eq_iff.mpr ⟨by simpa using h0, by simpa using h1⟩
  rw [this]
  simp

theorem fract_of_unit {x : α} (h0 : 0 ≤ x) (h1 : x < 1) : fract x = x := by
  unfold fract
  rw [floor_of_unit h0 h1, sub_zero]

theorem floor_int_add (n : ℤ) {t : α} (h0 : 0 ≤ t) (h1 : t < 1) : floor ((n : α) + t) = n := by
  unfold floor
  have : ⌊(n : α) + t⌋ = n := Int.floor_eq_iff.mpr ⟨by linarith, by linarith⟩
  rw [this]

theorem fract_int_add (n : ℤ) {t : α} (h0 : 0 ≤ t) (h1 : t < 1) : fract ((n : α) + t) = t := by
  unfold fract
  rw [floor_int_add n h0 h1]
  ring

theorem floor_int (n : ℤ) : floor (n : α) = n := by
  have := floor_int_add n (le_refl (0 : α)) zero_lt_one
  rwa [add_zero] at this

theorem fract_int (n : ℤ) : fract (n : α) = 0 := by
  unfold fract
  rw [floor_int, sub_self]

theorem random_nonneg (sin : α → α) (p : Vec2 α) : 0 ≤ random sin p := fract_nonneg _

theorem random_lt_one (sin : α → α) (p : Vec2 α) : random sin p < 1 := fract_lt_one _

theorem noiseCell_eq (sin : α → α) (i f : Vec2 α) :
    noiseCell sin i f =
      (1 - f.x * f.x * (3 - 2 * f.x)) * (1 - f.y * f.y * (3 - 2 * f.y)) * random sin i
      + f.x * f.x * (3 - 2 * f.x) * (1 - f.y * f.y * (3 - 2 * f.y)) * random sin ⟨i.x + 1, i.y + 0⟩
      + (1 - f.x * f.x * (3 - 2 * f.x)) * (f.y * f.y * (3 - 2 * f.y)) * random sin ⟨i.x + 0, i.y + 1⟩
      + f.x * f.x * (3 - 2 * f.x) * (f.y * f.y * (3 - 2 * f.y)) * random sin ⟨i.x + 1, i.y + 1⟩ := by
  simp only [noiseCell, mix]
  ring

theorem noiseCell_nonneg (sin : α → α) (i f : Vec2 α) (hx0 : 0 ≤ f.x) (hx1 : f.x ≤ 1)
    (hy0 : 0 ≤ f.y) (hy1 : f.y ≤ 1) : 0 ≤ noiseCell sin i f := by
  rw [noiseCell_eq]
  have hux0 := hermite_nonneg hx0 hx1
  have hux1 := hermite_le_one hx0 hx1
  have huy0 := hermite_nonneg hy0 hy1
  have huy1 := hermite_le_one hy0 hy1
  have := random_nonneg sin i
  have := random_nonneg sin ⟨i.x + 1, i.y + 0⟩
  have := random_nonneg sin ⟨i.x + 0, i.y + 1⟩
  have := random_nonneg sin ⟨i.x + 1, i.y + 1⟩
  have h1 : 0 ≤ 1 - f.x * f.x * (3 - 2 * f.x) := by linarith
  have h2 : 0 ≤ 1 - f.y * f.y * (3 - 2 * f.y) := by linarith
  exact add_nonneg (add_nonneg (add_nonneg (mul_nonneg (mul_nonneg h1 h2) ‹_›)
    (mul_nonneg (mul_nonneg hux0 h2) ‹_›)) (mul_nonneg (mul_nonneg h1 huy0) ‹_›))
    (mul_nonneg (mul_nonneg hux0 huy0) ‹_›)

theorem noiseCell_lt_one (sin : α → α) (i f : Vec2 α) (hx0 : 0 ≤ f.x) (hx1 : f.x ≤ 1)
    (hy0 : 0 ≤ f.y) (hy1 : f.y ≤ 1) : noiseCell sin i f < 1 := by
  rw [noiseCell_eq]
  have hux0 := hermite_nonneg hx0 hx1
  have hux1 := hermite_le_one hx0 hx1
  have huy0 := hermite_nonneg hy0 hy1
  have huy1 := hermite_le_one hy0 hy1
  have h1 : 0 ≤ 1 - f.x * f.x * (3 - 2 * f.x) := by linarith
  have h2 : 0 ≤ 1 - f.y * f.y * (3 - 2 * f.y) := by linarith
  exact convex4_lt_one (mul_nonneg h1 h2) (mul_nonneg hux0 h2) (mul_nonneg h1 huy0)
    (mul_nonneg hux0 huy0) (by ring) (random_lt_one sin _) (random_lt_one sin _)
    (random_lt_one sin _) (random_lt_one sin _)

theorem noise_nonneg (sin : α → α) (p : Vec2 α) : 0 ≤ noise sin p :=
  noiseCell_nonneg sin _ _ (fract_nonneg _) (fract_lt_one _).le (fract_nonneg _) (fract_lt_one _).le

theorem noise_lt_one (sin : α → α) (p : Vec2 α) : noise sin p < 1 :=
  noiseCell_lt_one sin _ _ (fract_nonneg _) (fract_lt_one _).le (fract_nonneg _) (fract_lt_one _).le

/-- On the right edge of a cell the formula agrees with the one of the cell to its right. -/
theorem noiseCell_seam_x (sin : α → α) (i : Vec2 α) (t : α) :
    noiseCell sin ⟨i.x + 1, i.y⟩ ⟨0, t⟩ = noiseCell sin i ⟨1, t⟩ := by
  rw [noiseCell_eq, noiseCell_eq]
  simp only [add_zero]
  ring

/-- On the top edge of a cell the formula agrees with the one of the cell above. -/
theorem noiseCell_seam_y (sin : α → α) (i : Vec2 α) (t : α) :
    noiseCell sin ⟨i.x, i.y + 1⟩ ⟨t, 0⟩ = noiseCell sin i ⟨t, 1⟩ := by
  rw [noiseCell_eq, noiseCell_eq]
  simp only [add_zero]
  ring

/-- On the closed cell `[n, n+1] × [m, m+1]`, `noise` is the formula of that cell. -/
theorem noise_eq_noiseCell_closed (sin : α → α) (n m : ℤ) (x y : α) (hx0 : (n : α) ≤ x)
    (hx1 : x ≤ n + 1) (hy0 : (m : α) ≤ y) (hy1 : y ≤ m + 1) :
    noise sin ⟨x, y⟩ = noiseCell sin ⟨n, m⟩ ⟨x - n, y - m⟩ := by
  have ex : x = (n : α) + (x - n) := by ring
  have ey : y = (m : α) + (y - m) := by ring
  have ex' : x = ((n + 1 : ℤ) : α) + (x - n - 1) := by push_cast; ring
  have ey' : y = ((m + 1 : ℤ) : α) + (y - m - 1) := by push_cast; ring
  unfold noise
  simp only []
  rcases hx1.lt_or_eq with hx | hx <;> rcases hy1.lt_or_eq with hy | hy
  · have fx := floor_int_add n (sub_nonneg.mpr hx0) (by linarith : x - n < 1)
    have fy := floor_int_add m (sub_nonneg.mpr hy0) (by linarith : y - m < 1)
    have gx := fract_int_add n (sub_nonneg.mpr hx0) (by linarith : x - n < 1)
    have gy := fract_int_add m (sub_nonneg.mpr hy0) (by linarith : y - m < 1)
    rw [← ex] at fx gx
    rw [← ey] at fy gy
    rw [fx, fy, gx, gy]
  · have fx := floor_int_add n (sub_nonneg.mpr hx0) (by linarith : x - n < 1)
    have gx := fract_int_add n (sub_nonneg.mpr hx0) (by linarith : x - n < 1)
    rw [← ex] at fx gx
    have fy : floor y = (m : α) + 1 := by rw [hy]; exact_mod_cast (floor_int (m + 1) : floor (((m + 1 : ℤ)) : α) = ((m + 1 : ℤ) : α))
    have gy : fract y = 0 := by rw [hy]; exact_mod_cast (fract_int (m + 1) : fract (((m + 1 : ℤ)) : α) = 0)
    have e1 : y - m = 1 := by rw [hy]; ring
    rw [fx, fy, gx, gy, e1]
    exact noiseCell_seam_y sin ⟨n, m⟩ (x - n)
  · have fy := floor_int_add m (sub_nonneg.mpr hy0) (by linarith : y - m < 1)
    have gy := fract_int_add m (sub_nonneg.mpr hy0) (by linarith : y - m < 1)
    rw [← ey] at fy gy
    have fx : floor x = (n : α) + 1 := by rw [hx]; exact_mod_cast (floor_int (n + 1) : floor (((n + 1 : ℤ)) : α) = ((n + 1 : ℤ) : α))
    have gx : fract x = 0 := by rw [hx]; exact_mod_cast (fract_int (n + 1) : fract (((n + 1 : ℤ)) : α) = 0)
    have e1 : x - n = 1 := by rw [hx]; ring
    rw [fx, fy, gx, gy, e1]
    exact noiseCell_seam_x sin ⟨n, m⟩ (y - m)
  · have fx : floor x = (n : α) + 1 := by rw [hx]; exact_mod_cast (floor_int (n + 1) : floor (((n + 1 : ℤ)) : α) = ((n + 1 : ℤ) : α))
    have gx : fract x = 0 := by rw [hx]; exact_mod_cast (fract_int (n + 1) : fract (((n + 1 : ℤ)) : α) = 0)
    have fy : floor y = (m : α) + 1 := by rw [hy]; exact_mod_cast (floor_int (m + 1) : floor (((m + 1 : ℤ)) : α) = ((m + 1 : ℤ) : α))
    have gy : fract y = 0 := by rw [hy]; exact_mod_cast (fract_int (m + 1) : fract (((m + 1 : ℤ)) : α) = 0)
    have e1 : x - n = 1 := by rw [hx]; ring
    have e2 : y - m = 1 := by rw [hy]; ring
    rw [fx, fy, gx, gy, e1, e2]
    rw [noiseCell_seam_x sin ⟨n, (m : α) + 1⟩ 0]
    exact noiseCell_seam_y sin ⟨n, m⟩ 1

/-- Inside the lattice cell with lower corner `(0, 0)`, `noise` is positive as
soon as `random` is positive at the corner `(1, 0)`. -/
theorem noise_pos_unit_cell (sin : α → α) (p : Vec2 α) (hx0 : 0 < p.x) (hx1 : p.x < 1)
    (hy0 : 0 ≤ p.y) (hy1 : p.y < 1) (hb : 0 < random sin ⟨1, 0⟩) : 0 < noise sin p := by
  have hux0 := hermite_pos hx0 hx1.le
  have hux1 := hermite_le_one hx0.le hx1.le
  have huy0 := hermite_nonneg hy0 hy1.le
  have huy1 := hermite_lt_one hy0 hy1
  simp only [noise, floor_of_unit hx0.le hx1, floor_of_unit hy0 hy1, fract_of_unit hx0.le hx1,
    fract_of_unit hy0 hy1]
  rw [noiseCell_eq]
  simp only [zero_add, add_zero]
  have h1 : 0 ≤ 1 - p.x * p.x * (3 - 2 * p.x) := by linarith
  have h2 : 0 < 1 - p.y * p.y * (3 - 2 * p.y) := by linarith
  have ha := random_nonneg sin ⟨0, 0⟩
  have hc := random_nonneg sin ⟨0, 1⟩
  have hd := random_nonneg sin ⟨1, 1⟩
  have t1 := mul_nonneg (mul_nonneg h1 h2.le) ha
  have t2 := mul_pos (mul_pos hux0 h2) hb
  have t3 := mul_nonneg (mul_nonneg h1 huy0) hc
  have t4 := mul_nonneg (mul_nonneg hux0.le huy0) hd
  linarith

theorem fbmLoop_zero (sin : α → α) (p : Vec2 α) :
    fbmLoop sin p 0 = { value := 0, amplitude := 0.5, st := p } := rfl

theorem fbmLoop_succ (sin : α → α) (p : Vec2 α) (n : Nat) :
    fbmLoop sin p (n + 1) = fbmStep sin (fbmLoop sin p n) := by
  unfold fbmLoop
  exact Function.iterate_succ_apply' _ _ _

theorem fbmLoop_amplitude (sin : α → α) (p : Vec2 α) (n : Nat) :
    (fbmLoop sin p n).amplitude = (1 / 2) ^ (n + 1) := by
  induction n with
  | zero => rw [fbmLoop_zero]; norm_num
  | succ k ih =>
    rw [fbmLoop_succ]
    simp only [fbmStep, ih]
    rw [pow_succ (1 / 2 : α) (k + 1)]
    norm_num

theorem fbmLoop_st (sin : α → α) (p : Vec2 α) (n : Nat) :
    (fbmLoop sin p n).st = ⟨2 ^ n * p.x, 2 ^ n * p.y⟩ := by
  induction n with
  | zero => rw [fbmLoop_zero]; simp
  | succ k ih =>
    rw [fbmLoop_succ]
    simp only [fbmStep, ih]
    ext <;> simp only [pow_succ] <;> ring

theorem fbmLoop_value (sin : α → α) (p : Vec2 α) (n : Nat) :
    (fbmLoop sin p n).value
      = ∑ k in Finset.range n, (1 / 2) ^ (k + 1) * noise sin ⟨2 ^ k * p.x, 2 ^ k * p.y⟩ := by
  induction n with
  | zero => rw [fbmLoop_zero]; simp
  | succ k ih =>
    rw [fbmLoop_succ, Finset.sum_range_succ, ← ih]
    simp only [fbmStep, fbmLoop_amplitude, fbmLoop_st]

theorem fbm_eq_sum (sin : α → α) (p : Vec2 α) :
    fbm sin p = ∑ k in Finset.range 6, (1 / 2) ^ (k + 1) * noise sin ⟨2 ^ k * p.x, 2 ^ k * p.y⟩ :=
  fbmLoop_value sin p 6

theorem fbm_nonneg (sin : α → α) (p : Vec2 α) : 0 ≤ fbm sin p := by
  rw [fbm_eq_sum]
  exact Finset.sum_nonneg fun k _ => mul_nonneg (by positivity) (noise_nonneg sin _)

theorem fbm_le (sin : α → α) (p : Vec2 α) : fbm sin p ≤ 63 / 64 := by
  rw [fbm_eq_sum]
  have h : ∀ k ∈ Finset.range 6,
      (1 / 2 : α) ^ (k + 1) * noise sin ⟨2 ^ k * p.x, 2 ^ k * p.y⟩ ≤ (1 / 2) ^ (k + 1) := by
    intro k _
    have := noise_lt_one sin ⟨2 ^ k * p.x, 2 ^ k * p.y⟩
    have hp : (0 : α) < (1 / 2) ^ (k + 1) := by positivity
    nlinarith
  refine le_trans (Finset.sum_le_sum h) ?_
  norm_num [Finset.sum_range_succ]

theorem fbm_lt_one (sin : α → α) (p : Vec2 α) : fbm sin p < 1 :=
  lt_of_le_of_lt (fbm_le sin p) (by norm_num)

/-- The first octave is a lower bound of `fbm`. -/
theorem half_noise_le_fbm (sin : α → α) (p : Vec2 α) : 1 / 2 * noise sin p ≤ fbm sin p := by
  rw [fbm_eq_sum, Finset.sum_range_succ']
  have h : 0 ≤ ∑ k in Finset.range 5,
      (1 / 2 : α) ^ (k + 1 + 1) * noise sin ⟨2 ^ (k + 1) * p.x, 2 ^ (k + 1) * p.y⟩ :=
    Finset.sum_nonneg fun k _ => mul_nonneg (by positivity) (noise_nonneg sin _)
  have e : noise sin ⟨2 ^ 0 * p.x, 2 ^ 0 * p.y⟩ = noise sin p := by simp
  rw [e]
  simp only [zero_add, pow_one]
  linarith

theorem main_f0_nonneg (sin : α → α) (st : Vec2 α) (time : α) : 0 ≤ main_f0 sin st time :=
  fbm_nonneg sin _

theorem main_f0_le (sin : α → α) (st : Vec2 α) (time : α) : main_f0 sin st time ≤ 63 / 64 :=
  fbm_le sin _

theorem main_f_nonneg (sin sqrt : α → α) (fragCoord : Vec2 α) (time : α)
    (mouse resolution : Vec2 α) : 0 ≤ main_f sin sqrt fragCoord time mouse resolution :=
  attenuate_nonneg (main_f0_nonneg sin _ _) _

theorem main_f_le (sin sqrt : α → α) (fragCoord : Vec2 α) (time : α)
    (mouse resolution : Vec2 α) : main_f sin sqrt fragCoord time mouse resolution ≤ 63 / 64 :=
  le_trans (attenuate_le (main_f0_nonneg sin _ _) _) (main_f0_le sin _ _)

theorem main_eq_of_main_f_eq (sin sqrt : α → α) (fragCoord : Vec2 α) (time : α)
    (m1 m2 resolution : Vec2 α)
    (h : main_f sin sqrt fragCoord time m1 resolution = main_f sin sqrt fragCoord time m2 resolution) :
    main sin sqrt fragCoord time m1 resolution = main sin sqrt fragCoord time m2 resolution := by
  simp only [main, h]

end NoiseLemmas

/-! ## The shader over the reals -/

section RealLemmas

theorem sin_taylor7 {y : ℝ} (hy : |y| ≤ 1) :
    |Real.sin y - (y - y ^ 3 / 6 + y ^ 5 / 120 - y ^ 7 / 5040)| ≤ |y| ^ 9 * (10 / (362880 * 9)) := by
  have hb := Complex.exp_bound (x := (y : ℂ) * Complex.I) (by simpa using hy) (n := 9) (by norm_num)
  have hI2 : Complex.I ^ 2 = -1 := Complex.I_sq
  have hI3 : Complex.I ^ 3 = -Complex.I := by rw [pow_succ, hI2]; ring
  have hI4 : Complex.I ^ 4 = 1 := by rw [pow_succ, hI3]; simp
  have hI5 : Complex.I ^ 5 = Complex.I := by rw [pow_succ, hI4]; ring
  have hI6 : Complex.I ^ 6 = -1 := by rw [pow_succ, hI5]; simp
  have hI7 : Complex.I ^ 7 = -Complex.I := by rw [pow_succ, hI6]; ring
  have hI8 : Complex.I ^ 8 = 1 := by rw [pow_succ, hI7]; simp
  have hsum : ∑ m in Finset.range 9, ((y : ℂ) * Complex.I) ^ m / (m.factorial : ℂ)
      = ((1 - y ^ 2 / 2 + y ^ 4 / 24 - y ^ 6 / 720 + y ^ 8 / 40320 : ℝ) : ℂ)
        + ((y - y ^ 3 / 6 + y ^ 5 / 120 - y ^ 7 / 5040 : ℝ) : ℂ) * Complex.I := by
    simp only [Finset.sum_range_succ, Finset.sum_range_zero, mul_pow, hI2, hI3, hI4, hI5, hI6,
      hI7, hI8, Nat.factorial]
    push_cast
    ring
  have him : (Complex.exp ((y : ℂ) * Complex.I) - ∑ m in Finset.range 9, ((y : ℂ) * Complex.I) ^ m / (m.factorial : ℂ)).im
      = Real.sin y - (y - y ^ 3 / 6 + y ^ 5 / 120 - y ^ 7 / 5040) := by
    rw [hsum, Complex.sub_im, Complex.exp_ofReal_mul_I_im, Complex.add_im, Complex.ofReal_im,
      Complex.mul_I_im, Complex.ofReal_re, zero_add]
  rw [← him]
  refine le_trans (Complex.abs_im_le_abs _) (le_trans hb ?_)
  simp only [map_mul, Complex.abs_ofReal, Complex.abs_I, mul_one]
  norm_num [Nat.factorial]

/-- `12.9898 - 4π` between two decimals. -/
theorem arg_reduced_bounds :
    (423429385 / 1000000000 : ℝ) < 12.9898 - 2 * (2 * Real.pi) ∧ 12.9898 - 2 * (2 * Real.pi) < (423429386 / 1000000000 : ℝ) := by
  have h1 := Real.pi_gt_d20
  have h2 := Real.pi_lt_d20
  norm_num at h1 h2 ⊢
  constructor <;> linarith

theorem sin_interval_bounds {y : ℝ} (hlo : (423429385 / 1000000000 : ℝ) < y)
    (hhi : y < (423429386 / 1000000000 : ℝ)) :
    (17979 : ℝ) < Real.sin y * (437585453123 / 10000000)
      ∧ Real.sin y * (437585453123 / 10000000) < 17980 := by
  have hy0 : 0 ≤ y := le_trans (by norm_num) hlo.le
  have hy1 : |y| ≤ 1 := by
    rw [abs_of_nonneg hy0]
    exact le_trans hhi.le (by norm_num)
  have hT := sin_taylor7 hy1
  rw [abs_of_nonneg hy0] at hT
  obtain ⟨hT1, hT2⟩ := abs_le.mp hT
  have p3l : (423429385 / 1000000000 : ℝ) ^ 3 ≤ y ^ 3 := pow_le_pow_left₀ (by norm_num) hlo.le 3
  have p3h : y ^ 3 ≤ (423429386 / 1000000000 : ℝ) ^ 3 := pow_le_pow_left₀ hy0 hhi.le 3
  have p5l : (423429385 / 1000000000 : ℝ) ^ 5 ≤ y ^ 5 := pow_le_pow_left₀ (by norm_num) hlo.le 5
  have p5h : y ^ 5 ≤ (423429386 / 1000000000 : ℝ) ^ 5 := pow_le_pow_left₀ hy0 hhi.le 5
  have p7l : (423429385 / 1000000000 : ℝ) ^ 7 ≤ y ^ 7 := pow_le_pow_left₀ (by norm_num) hlo.le 7
  have p7h : y ^ 7 ≤ (423429386 / 1000000000 : ℝ) ^ 7 := pow_le_pow_left₀ hy0 hhi.le 7
  have p9h : y ^ 9 ≤ (423429386 / 1000000000 : ℝ) ^ 9 := pow_le_pow_left₀ hy0 hhi.le 9
  norm_num at p3l p3h p5l p5h p7l p7h p9h
  constructor <;> linarith

theorem sin_lattice_bounds :
    (17979 : ℝ) < Real.sin 12.9898 * 43758.5453123 ∧ Real.sin 12.9898 * 43758.5453123 < 17980 := by
  obtain ⟨hlo, hhi⟩ := arg_reduced_bounds
  have hper : Real.sin (12.9898 - 2 * (2 * Real.pi)) = Real.sin 12.9898 := by
    have := Real.sin_sub_nat_mul_two_pi 12.9898 2
    simpa using this
  have h := sin_interval_bounds hlo hhi
  rw [hper] at h
  norm_num at h ⊢
  exact h

/-- The lattice value `random(1, 0)` of the shader over the reals is positive. -/
theorem random_one_zero_pos : 0 < random Real.sin (⟨1, 0⟩ : Vec2 ℝ) := by
  obtain ⟨h1, h2⟩ := sin_lattice_bounds
  have e : dot (⟨1, 0⟩ : Vec2 ℝ) ⟨12.9898, 78.233⟩ = 12.9898 := by
    simp [dot]
  unfold random fract floor
  rw [e]
  have hf : ⌊Real.sin 12.9898 * 43758.5453123⌋ = 17979 :=
    Int.floor_eq_iff.mpr ⟨by push_cast; exact h1.le, by push_cast; linarith⟩
  rw [hf]
  push_cast
  linarith

/-- With the pointer on the sample point `st = (1/1200, 1/1200)`, the field value
`fbm(st + r)` of the shader over the reals is not zero. -/
theorem main_f0_pos_at_sample (time : ℝ) :
    0 < main_f0 Real.sin (⟨1 / 1200, 1 / 1200⟩ : Vec2 ℝ) time := by
  unfold main_f0
  set r := main_r Real.sin (⟨1 / 1200, 1 / 1200⟩ : Vec2 ℝ) time with hr
  have rx0 : 0 ≤ r.x := fbm_nonneg Real.sin _
  have rx1 : r.x ≤ 63 / 64 := fbm_le Real.sin _
  have ry0 : 0 ≤ r.y := fbm_nonneg Real.sin _
  have ry1 : r.y ≤ 63 / 64 := fbm_le Real.sin _
  have hn := noise_pos_unit_cell Real.sin (⟨1 / 1200 + r.x, 1 / 1200 + r.y⟩ : Vec2 ℝ)
    (by simp only []; linarith) (by simp only []; linarith) (by simp only []; linarith)
    (by simp only []; linarith) random_one_zero_pos
  have := half_noise_le_fbm Real.sin (⟨1 / 1200 + r.x, 1 / 1200 + r.y⟩ : Vec2 ℝ)
  simp only []
  linarith

theorem sample_st : main_st (⟨1 / 2, 1 / 2⟩ : Vec2 ℝ) ⟨800, 600⟩ = ⟨1 / 1200, 1 / 1200⟩ := by
  simp only [main_st, main_st0]
  ext <;> norm_num

theorem sample_mousePos :
    main_mousePos (⟨2 / 3, 1 / 2⟩ : Vec2 ℝ) ⟨800, 600⟩ = ⟨1 / 1200, 1 / 1200⟩ := by
  simp only [main_mousePos]
  ext <;> norm_num

theorem length_eq_abs (v : Vec2 ℝ) : length Real.sqrt v = Complex.abs ⟨v.x, v.y⟩ := by
  rw [Complex.abs_apply, Complex.normSq_mk]
  rfl

/-- Triangle inequality for the shader's `length` and `distance` over the reals. -/
theorem length_le_distance_add (a b : Vec2 ℝ) :
    length Real.sqrt a ≤ distance Real.sqrt a b + length Real.sqrt b := by
  unfold distance
  rw [length_eq_abs, length_eq_abs, length_eq_abs]
  have e : (⟨a.x, a.y⟩ : ℂ) = ⟨a.x - b.x, a.y - b.y⟩ + ⟨b.x, b.y⟩ := by
    apply Complex.ext <;> simp
  calc Complex.abs ⟨a.x, a.y⟩ = Complex.abs (⟨a.x - b.x, a.y - b.y⟩ + ⟨b.x, b.y⟩) := by rw [← e]
    _ ≤ Complex.abs ⟨a.x - b.x, a.y - b.y⟩ + Complex.abs ⟨b.x, b.y⟩ := map_add_le_add _ _ _

theorem distance_self (a : Vec2 ℝ) : distance Real.sqrt a a = 0 := by
  simp [distance, length]

/-- The pointer position in shader space is within `sqrt(1/w² + 1/h²)` of the origin. -/
theorem length_mousePos_le (mouse resolution : Vec2 ℝ) (hm : inNDC mouse)
    (hw : 1 ≤ resolution.x) (hh : 1 ≤ resolution.y) :
    length Real.sqrt (main_mousePos mouse resolution)
      ≤ Real.sqrt (1 / resolution.x ^ 2 + 1 / resolution.y ^ 2) := by
  obtain ⟨hx0, hx1, hy0, hy1⟩ := hm
  have hw0 : (0 : ℝ) < resolution.x := by linarith
  have hh0 : (0 : ℝ) < resolution.y := by linarith
  have mx : mouse.x * mouse.x ≤ 1 := by nlinarith
  have my : mouse.y * mouse.y ≤ 1 := by nlinarith
  unfold length main_mousePos
  apply Real.sqrt_le_sqrt
  have ex : mouse.x / resolution.x * (mouse.x / resolution.x)
      = mouse.x * mouse.x * (1 / resolution.x ^ 2) := by
    rw [div_mul_div_comm, mul_one_div, sq]
  have ey : mouse.y / resolution.y * (mouse.y / resolution.y)
      = mouse.y * mouse.y * (1 / resolution.y ^ 2) := by
    rw [div_mul_div_comm, mul_one_div, sq]
  have px : 0 ≤ 1 / resolution.x ^ 2 := by positivity
  have py : 0 ≤ 1 / resolution.y ^ 2 := by positivity
  simp only [ex, ey]
  nlinarith [mul_le_mul_of_nonneg_right mx px, mul_le_mul_of_nonneg_right my py]

theorem main_dist_far (fragCoord mouse resolution : Vec2 ℝ) (hm : inNDC mouse)
    (hw : 1 ≤ resolution.x) (hh : 1 ≤ resolution.y)
    (hst : 0.3 + Real.sqrt (1 / resolution.x ^ 2 + 1 / resolution.y ^ 2)
      ≤ length Real.sqrt (main_st fragCoord resolution)) :
    0.3 ≤ main_dist Real.sqrt fragCoord mouse resolution := by
  have h1 := length_le_distance_add (main_st fragCoord resolution) (main_mousePos mouse resolution)
  have h2 := length_mousePos_le mouse resolution hm hw hh
  unfold main_dist
  linarith

theorem sample_far_length :
    length Real.sqrt (main_st (⟨400, 300⟩ : Vec2 ℝ) ⟨800, 600⟩) = 5 / 6 := by
  have e : main_st (⟨400, 300⟩ : Vec2 ℝ) ⟨800, 600⟩ = ⟨2 / 3, 1 / 2⟩ := by
    simp only [main_st, main_st0]
    ext <;> norm_num
  rw [e]
  unfold length
  have : (2 / 3 : ℝ) * (2 / 3) + 1 / 2 * (1 / 2) = (5 / 6) * (5 / 6) := by norm_num
  simp only [this]
  exact Real.sqrt_mul_self (by norm_num)

theorem sample_far_threshold :
    (0.3 : ℝ) + Real.sqrt (1 / (800 : ℝ) ^ 2 + 1 / (600 : ℝ) ^ 2) ≤ 5 / 6 := by
  have h : Real.sqrt (1 / (800 : ℝ) ^ 2 + 1 / (600 : ℝ) ^ 2) ≤ 1 / 2 := by
    rw [Real.sqrt_le_left (by norm_num)]
    norm_num
  norm_num at h ⊢
  linarith

/-- Every point of the plane has a neighbourhood that meets finitely many closed
lattice cells. -/
theorem cells_locallyFinite :
    LocallyFinite (fun n : ℤ × ℤ =>
      (Set.Icc (n.1 : ℝ) (n.1 + 1) ×ˢ Set.Icc (n.2 : ℝ) (n.2 + 1) : Set (ℝ × ℝ))) := by
  intro p
  refine ⟨Set.Ioo (p.1 - 1) (p.1 + 1) ×ˢ Set.Ioo (p.2 - 1) (p.2 + 1), ?_, ?_⟩
  · exact prod_mem_nhds (Ioo_mem_nhds (by linarith) (by linarith))
      (Ioo_mem_nhds (by linarith) (by linarith))
  · refine (Set.finite_Icc ((⌊p.1⌋ - 2, ⌊p.2⌋ - 2) : ℤ × ℤ) (⌊p.1⌋ + 1, ⌊p.2⌋ + 1)).subset ?_
    rintro ⟨n, m⟩ ⟨⟨x, y⟩, ⟨⟨hx0, hx1⟩, ⟨hy0, hy1⟩⟩, ⟨⟨hx2, hx3⟩, ⟨hy2, hy3⟩⟩⟩
    simp only at hx0 hx1 hy0 hy1 hx2 hx3 hy2 hy3
    have a1 := Int.floor_le p.1
    have a2 := Int.lt_floor_add_one p.1
    have b1 := Int.floor_le p.2
    have b2 := Int.lt_floor_add_one p.2
    have c1 : ((⌊p.1⌋ - 2 : ℤ) : ℝ) < (n : ℝ) := by push_cast; linarith
    have c2 : (n : ℝ) < ((⌊p.1⌋ + 2 : ℤ) : ℝ) := by push_cast; linarith
    have d1 : ((⌊p.2⌋ - 2 : ℤ) : ℝ) < (m : ℝ) := by push_cast; linarith
    have d2 : (m : ℝ) < ((⌊p.2⌋ + 2 : ℤ) : ℝ) := by push_cast; linarith
    have c1' := Int.cast_lt.mp c1
    have c2' := Int.cast_lt.mp c2
    have d1' := Int.cast_lt.mp d1
    have d2' := Int.cast_lt.mp d2
    refine ⟨⟨?_, ?_⟩, ⟨?_, ?_⟩⟩ <;> simp only <;> omega

/-- The closed lattice cells cover the plane. -/
theorem cells_cover :
    ⋃ n : ℤ × ℤ, (Set.Icc (n.1 : ℝ) (n.1 + 1) ×ˢ Set.Icc (n.2 : ℝ) (n.2 + 1) : Set (ℝ × ℝ))
      = Set.univ := by
  refine Set.eq_univ_of_forall fun p => Set.mem_iUnion.mpr ⟨(⌊p.1⌋, ⌊p.2⌋), ?_⟩
  exact ⟨⟨Int.floor_le _, (Int.lt_floor_add_one _).le⟩, ⟨Int.floor_le _, (Int.lt_floor_add_one _).le⟩⟩

/-- The shader's `noise` is continuous on the real plane, whatever `sin` is. -/
theorem noise_continuous (sin : ℝ → ℝ) : Continuous fun p : ℝ × ℝ => noise sin ⟨p.1, p.2⟩ := by
  refine cells_locallyFinite.continuous cells_cover
    (fun n => isClosed_Icc.prod isClosed_Icc) (fun n => ?_)
  have hc : Continuous fun p : ℝ × ℝ =>
      noiseCell sin ⟨(n.1 : ℝ), (n.2 : ℝ)⟩ ⟨p.1 - n.1, p.2 - n.2⟩ := by
    simp only [noiseCell, mix]
    fun_prop
  refine hc.continuousOn.congr ?_
  rintro ⟨x, y⟩ ⟨⟨hx0, hx1⟩, ⟨hy0, hy1⟩⟩
  exact noise_eq_noiseCell_closed sin n.1 n.2 x y hx0 hx1 hy0 hy1

end RealLemmas

/-! ## Claims about the host component -/

section HostClaims

variable {α : Type} [LinearOrderedField α]

/-- C2. Pointer mapping: for every pointer-move event `(clientX, clientY)` and
every window size with `innerWidth > 0` and `innerHeight > 0`, `handleMouseMove`
changes nothing but the stored pointer position, which becomes exactly
`(2*clientX/innerWidth - 1, -(2*clientY/innerHeight - 1))` (the vertical axis
is flipped); the top-left corner `(0, 0)` maps to `(-1, 1)`, the window centre
to `(0, 0)` and the bottom-right corner `(innerWidth, innerHeight)` to
`(1, -1)`. -/
theorem handleMouseMove_mapping (clientX clientY innerWidth innerHeight : α) (s : Host α)
    (hw : 0 < innerWidth) (hh : 0 < innerHeight) :
    handleMouseMove clientX clientY innerWidth innerHeight s
        = { s with mousePosition :=
              ⟨2 * clientX / innerWidth - 1, -(2 * clientY / innerHeight - 1)⟩ }
    ∧ (handleMouseMove 0 0 innerWidth innerHeight s).mousePosition = ⟨-1, 1⟩
    ∧ (handleMouseMove (innerWidth / 2) (innerHeight / 2) innerWidth innerHeight s).mousePosition
        = ⟨0, 0⟩
    ∧ (handleMouseMove innerWidth innerHeight innerWidth innerHeight s).mousePosition
        = ⟨1, -1⟩ := by
  have hw' : innerWidth ≠ 0 := hw.ne'
  have hh' : innerHeight ≠ 0 := hh.ne'
  refine ⟨?_, ?_, ?_, ?_⟩
  · simp only [handleMouseMove, mouseNDC]
    congr 1
    ext <;> simp only [] <;> ring
  · simp only [handleMouseMove, mouseNDC]
    ext <;> simp
  · simp only [handleMouseMove, mouseNDC]
    ext <;> simp only [] <;> field_simp <;> ring
  · simp only [handleMouseMove, mouseNDC]
    ext <;> simp only [] <;> field_simp <;> ring

/-- Witness of C2: in an 800 × 600 window the event at `(200, 150)` stores
`(-1/2, 1/2)`. -/
theorem handleMouseMove_mapping_witness :
    (0 : ℚ) < 800 ∧ (0 : ℚ) < 600
    ∧ (handleMouseMove (200 : ℚ) 150 800 600
        ⟨true, ⟨0, 0⟩, ⟨0, ⟨0, 0⟩, ⟨800, 600⟩⟩⟩).mousePosition = ⟨-1 / 2, 1 / 2⟩ := by
  refine ⟨by norm_num, by norm_num, ?_⟩
  rw [(handleMouseMove_mapping (200 : ℚ) 150 800 600
    ⟨true, ⟨0, 0⟩, ⟨0, ⟨0, 0⟩, ⟨800, 600⟩⟩⟩ (by norm_num) (by norm_num)).1]
  ext <;> norm_num

/-- C3. Pointer range invariant: the stored pointer position starts at
`(0, 0)`; every pointer-move event with `0 ≤ clientX ≤ innerWidth` and
`0 ≤ clientY ≤ innerHeight` (`innerWidth, innerHeight > 0`) stores a pair with
both components in `[-1, 1]`; the per-frame callback copies the stored pair
unchanged into the `mouse` uniform (and leaves the uniform as it is while the
mesh is not attached); hence after any sequence of resizes, frames, changes of
the mesh ref and pointer moves inside the window, both the stored pair and the
`mouse` uniform are in `[-1, 1]²`. -/
theorem pointer_range_invariant (meshReady : Bool) (size : Vec2 α) (es : List (Event α))
    (hes : ∀ e ∈ es, e.inWindow) :
    (initial meshReady size).mousePosition = ⟨0, 0⟩
    ∧ (initial meshReady size).uniforms.mouse = ⟨0, 0⟩
    ∧ (∀ (x y w h : α) (s : Host α), 0 < w → 0 < h → 0 ≤ x → x ≤ w → 0 ≤ y → y ≤ h →
        inNDC (handleMouseMove x y w h s).mousePosition)
    ∧ (∀ (t : α) (s : Host α), s.meshReady = true →
        (useFrame t s).uniforms.mouse = s.mousePosition)
    ∧ (∀ (t : α) (s : Host α), s.meshReady = false →
        (useFrame t s).uniforms.mouse = s.uniforms.mouse)
    ∧ inNDC (run (initial meshReady size) es).mousePosition
    ∧ inNDC (run (initial meshReady size) es).uniforms.mouse := by
  refine ⟨rfl, rfl, ?_, ?_, ?_, run_inNDC es _ hes ⟨inNDC_zero, inNDC_zero⟩⟩
  · intro x y w h s hw hh hx0 hx1 hy0 hy1
    exact mouseNDC_inNDC hw hh hx0 hx1 hy0 hy1
  · intro t s hs
    simp [useFrame, hs]
  · intro t s hs
    simp [useFrame, hs]

/-- Witness of C3: a pointer move to the top-right corner, a frame, a resize, a
pointer move to the bottom-left corner and a second frame. -/
theorem pointer_range_invariant_witness :
    (∀ e ∈ ([.mouseMove 800 0 800 600, .frame 1, .resize 1024 768, .mouseMove 0 768 1024 768,
        .frame 2] : List (Event ℚ)), e.inWindow)
    ∧ inNDC (run (initial true (⟨800, 600⟩ : Vec2 ℚ))
        [.mouseMove 800 0 800 600, .frame 1, .resize 1024 768, .mouseMove 0 768 1024 768,
         .frame 2]).uniforms.mouse :=
  ⟨by simp [Event.inWindow],
   (pointer_range_invariant true (⟨800, 600⟩ : Vec2 ℚ)
    [.mouseMove 800 0 800 600, .frame 1, .resize 1024 768, .mouseMove 0 768 1024 768, .frame 2]
    (by simp [Event.inWindow])).2.2.2.2.2.2⟩

end HostClaims

section UniformClaims

variable {α : Type}

/-- C9, as amended. Uniform updates touch only their own inputs: while the mesh
and its material are attached, `handleResize` sets `resolution` to exactly
`(innerWidth, innerHeight)` and leaves `time` and `mouse` unchanged, and the
per-frame callback sets `time` to the elapsed time and `mouse` to the stored
pointer position and leaves `resolution` unchanged; while the mesh is not
attached, neither of the two changes anything. -/
theorem uniform_updates (s : Host α) (innerWidth innerHeight elapsedTime : α) :
    (s.meshReady = true →
        (handleResize innerWidth innerHeight s).uniforms.resolution = ⟨innerWidth, innerHeight⟩
        ∧ (handleResize innerWidth innerHeight s).uniforms.time = s.uniforms.time
        ∧ (handleResize innerWidth innerHeight s).uniforms.mouse = s.uniforms.mouse)
    ∧ (s.meshReady = false → handleResize innerWidth innerHeight s = s)
    ∧ (s.meshReady = true →
        (useFrame elapsedTime s).uniforms.time = elapsedTime
        ∧ (useFrame elapsedTime s).uniforms.mouse = s.mousePosition
        ∧ (useFrame elapsedTime s).uniforms.resolution = s.uniforms.resolution)
    ∧ (s.meshReady = false → useFrame elapsedTime s = s) := by
  refine ⟨fun h => ?_, fun h => ?_, fun h => ?_, fun h => ?_⟩
  · simp [handleResize, h]
  · simp [handleResize, h]
  · simp [useFrame, h]
  · simp [useFrame, h]

/-- Witness of C9 as amended: with the mesh attached, a resize to 1024 × 768
and a frame at elapsed time 3. -/
theorem uniform_updates_witness :
    (handleResize (1024 : ℚ) 768 ⟨true, ⟨1 / 2, 1 / 2⟩, ⟨0, ⟨0, 0⟩, ⟨800, 600⟩⟩⟩).uniforms
        = ⟨0, ⟨0, 0⟩, ⟨1024, 768⟩⟩
    ∧ (useFrame (3 : ℚ) ⟨true, ⟨1 / 2, 1 / 2⟩, ⟨0, ⟨0, 0⟩, ⟨800, 600⟩⟩⟩).uniforms
        = ⟨3, ⟨1 / 2, 1 / 2⟩, ⟨800, 600⟩⟩ := by
  obtain ⟨h1, -, h3, -⟩ := uniform_updates
    (⟨true, ⟨1 / 2, 1 / 2⟩, ⟨0, ⟨0, 0⟩, ⟨800, 600⟩⟩⟩ : Host ℚ) 1024 768 3
  obtain ⟨a1, a2, a3⟩ := h1 rfl
  obtain ⟨b1, b2, b3⟩ := h3 rfl
  exact ⟨Uniforms.ext a2 a3 a1, Uniforms.ext b1 b2 b3⟩

/-- Counterexample to C9 as stated: with the mesh not attached, the per-frame
callback at elapsed time 1 and stored pointer `(1/2, 1/2)` leaves `time` at 0
and `mouse` at `(0, 0)`; it sets neither. -/
theorem useFrame_not_ready_keeps_time :
    (useFrame (1 : ℚ) ⟨false, ⟨1 / 2, 1 / 2⟩, ⟨0, ⟨0, 0⟩, ⟨800, 600⟩⟩⟩).uniforms.time = 0
    ∧ (useFrame (1 : ℚ) ⟨false, ⟨1 / 2, 1 / 2⟩, ⟨0, ⟨0, 0⟩, ⟨800, 600⟩⟩⟩).uniforms.mouse = ⟨0, 0⟩
    ∧ ¬ ((useFrame (1 : ℚ) ⟨false, ⟨1 / 2, 1 / 2⟩, ⟨0, ⟨0, 0⟩, ⟨800, 600⟩⟩⟩).uniforms.time = 1
        ∧ (useFrame (1 : ℚ) ⟨false, ⟨1 / 2, 1 / 2⟩, ⟨0, ⟨0, 0⟩, ⟨800, 600⟩⟩⟩).uniforms.mouse
            = ⟨1 / 2, 1 / 2⟩) := by
  refine ⟨rfl, rfl, ?_⟩
  simp [useFrame]

end UniformClaims

/-! ## Claims about the working coordinate, `fbm`, `noise` and the output range -/

section ShaderClaims

variable {α : Type} [LinearOrderedField α]

/-- C4. Coordinate normalisation with aspect correction: for every resolution
`(w, h)` with `w > 0` and `h > 0` and every pixel coordinate `(px, py)`, the
working coordinate of `main` is `st = ((px / w) * (w / h), py / h)
= (px / h, py / h)`: both axes are scaled by `1 / h`, and `st` is the same for
every positive width.  At resolution `(800, 600)` and pixel `(400, 300)`, `st`
is `(0.5, 0.5)` before the aspect correction and `st.x = 0.5 * (800 / 600)
= 2 / 3` after it. -/
theorem main_st_aspect (fragCoord resolution : Vec2 α) (hw : 0 < resolution.x)
    (hh : 0 < resolution.y) :
    main_st fragCoord resolution
        = ⟨(fragCoord.x / resolution.x) * (resolution.x / resolution.y),
            fragCoord.y / resolution.y⟩
    ∧ main_st fragCoord resolution = ⟨fragCoord.x / resolution.y, fragCoord.y / resolution.y⟩
    ∧ (∀ w : α, 0 < w →
        main_st fragCoord ⟨w, resolution.y⟩ = main_st fragCoord resolution)
    ∧ main_st0 (⟨400, 300⟩ : Vec2 α) ⟨800, 600⟩ = ⟨0.5, 0.5⟩
    ∧ (main_st (⟨400, 300⟩ : Vec2 α) ⟨800, 600⟩).x = 0.5 * (800 / 600)
    ∧ (main_st (⟨400, 300⟩ : Vec2 α) ⟨800, 600⟩).x = 2 / 3 := by
  have key : ∀ w : α, 0 < w → main_st fragCoord ⟨w, resolution.y⟩
      = ⟨fragCoord.x / resolution.y, fragCoord.y / resolution.y⟩ := by
    intro w hw
    simp only [main_st, main_st0]
    ext
    · simp only []
      field_simp
    · rfl
  refine ⟨rfl, key resolution.x hw, fun w hw' => ?_, ?_, ?_, ?_⟩
  · rw [key w hw', ← key resolution.x hw]
  · simp only [main_st0]; ext <;> norm_num
  · simp only [main_st, main_st0]; norm_num
  · simp only [main_st, main_st0]; norm_num

/-- Witness of C4: resolution `(800, 600)`, pixel `(400, 300)`. -/
theorem main_st_aspect_witness :
    (0 : ℚ) < 800 ∧ (0 : ℚ) < 600
    ∧ main_st (⟨400, 300⟩ : Vec2 ℚ) ⟨800, 600⟩ = ⟨400 / 600, 300 / 600⟩ :=
  ⟨by norm_num, by norm_num,
   (main_st_aspect (⟨400, 300⟩ : Vec2 ℚ) ⟨800, 600⟩ (by norm_num) (by norm_num)).2.1⟩

variable [FloorRing α]

/-- C5. `fbm` is a fixed sum of six octaves: `OCTAVES = 6` and for every point
`p`, `fbm(p) = Σ_{k < 6} (1/2)^(k+1) * noise(2^k * p)`.  In the loop, iteration
`k` adds `amplitude * noise(st)` with `amplitude = (1/2)^(k+1)` and
`st = 2^k * p`; the amplitudes are 0.5, 0.25, 0.125, 0.0625, 0.03125, 0.015625,
each exactly half the previous one and strictly smaller, and the sampled point
doubles from one octave to the next. -/
theorem fbm_six_octaves (sin : α → α) (p : Vec2 α) :
    OCTAVES = 6
    ∧ fbm sin p
        = ∑ k in Finset.range 6, (1 / 2) ^ (k + 1) * noise sin ⟨2 ^ k * p.x, 2 ^ k * p.y⟩
    ∧ (∀ k, (fbmLoop sin p k).amplitude = (1 / 2) ^ (k + 1)
          ∧ (fbmLoop sin p k).st = ⟨2 ^ k * p.x, 2 ^ k * p.y⟩
          ∧ (fbmLoop sin p (k + 1)).value
              = (fbmLoop sin p k).value
                + (fbmLoop sin p k).amplitude * noise sin (fbmLoop sin p k).st)
    ∧ (List.range 6).map (fun k => (fbmLoop sin p k).amplitude)
        = [0.5, 0.25, 0.125, 0.0625, 0.03125, 0.015625]
    ∧ (∀ k, (fbmLoop sin p (k + 1)).amplitude = (fbmLoop sin p k).amplitude / 2
          ∧ (fbmLoop sin p (k + 1)).amplitude < (fbmLoop sin p k).amplitude
          ∧ (fbmLoop sin p (k + 1)).st
              = ⟨2 * (fbmLoop sin p k).st.x, 2 * (fbmLoop sin p k).st.y⟩) := by
  refine ⟨rfl, fbm_eq_sum sin p, ?_, ?_, ?_⟩
  · intro k
    exact ⟨fbmLoop_amplitude sin p k, fbmLoop_st sin p k, by rw [fbmLoop_succ]; rfl⟩
  · simp only [fbmLoop_amplitude, List.range, List.range.loop, List.map]
    norm_num
  · intro k
    have hp : (0 : α) < (1 / 2) ^ (k + 1) := by positivity
    refine ⟨?_, ?_, ?_⟩
    · rw [fbmLoop_amplitude, fbmLoop_amplitude, pow_succ (1 / 2 : α) (k + 1)]
      ring
    · rw [fbmLoop_amplitude, fbmLoop_amplitude, pow_succ (1 / 2 : α) (k + 1)]
      linarith
    · rw [fbmLoop_succ]
      simp only [fbmStep]
      ext <;> simp only [] <;> ring

/-- C7. `noise` is 4-corner bilinear interpolation with Hermite easing: for
every point `p`, the value `mix(a, b, u.x) + (c - a)*u.y*(1 - u.x)
+ (d - b)*u.x*u.y` returned by `noise(p)` equals
`(1-u.x)(1-u.y)*a + u.x(1-u.y)*b + (1-u.x)u.y*c + u.x*u.y*d` with
`u = 3f² - 2f³` on each component of `f = fract(p)` and `a, b, c, d` the values
of `random` at the four lattice points around `p`; the four weights are
non-negative and sum to 1, so the value is a convex combination of the corner
values. -/
theorem noise_eq_noiseBilinear (sin : α → α) (p : Vec2 α) :
    noise sin p = noiseBilinear sin p
    ∧ (∀ w ∈ bilinearWeights (easedFract p), 0 ≤ w)
    ∧ (bilinearWeights (easedFract p)).sum = 1 := by
  have hx0 := fract_nonneg p.x
  have hx1 := (fract_lt_one p.x).le
  have hy0 := fract_nonneg p.y
  have hy1 := (fract_lt_one p.y).le
  have ex : 3 * fract p.x ^ 2 - 2 * fract p.x ^ 3 = fract p.x * fract p.x * (3 - 2 * fract p.x) := by
    ring
  have ey : 3 * fract p.y ^ 2 - 2 * fract p.y ^ 3 = fract p.y * fract p.y * (3 - 2 * fract p.y) := by
    ring
  have hux0 := hermite_nonneg hx0 hx1
  have hux1 := hermite_le_one hx0 hx1
  have huy0 := hermite_nonneg hy0 hy1
  have huy1 := hermite_le_one hy0 hy1
  refine ⟨?_, ?_, ?_⟩
  · simp only [noise, noiseBilinear, easedFract, noiseCell, mix]
    ring
  · intro w hw
    simp only [bilinearWeights, easedFract, ex, ey, List.mem_cons, List.mem_singleton,
      List.not_mem_nil, or_false] at hw
    have h1 : 0 ≤ 1 - fract p.x * fract p.x * (3 - 2 * fract p.x) := by linarith
    have h2 : 0 ≤ 1 - fract p.y * fract p.y * (3 - 2 * fract p.y) := by linarith
    rcases hw with rfl | rfl | rfl | rfl
    · exact mul_nonneg h1 h2
    · exact mul_nonneg hux0 h2
    · exact mul_nonneg h1 huy0
    · exact mul_nonneg hux0 huy0
  · simp only [bilinearWeights, List.sum_cons, List.sum_nil]
    ring

/-- C8. Output range: for every pixel coordinate, time, pointer position and
resolution with positive components, and whatever the built-ins `sin` and
`sqrt` return, each of the three RGB components of
`gl_FragColor = (f³ + 0.6 f² + 0.5 f) * color` is non-negative and at most 3,
and alpha is exactly 1.  Along the way: `random` and `noise` take values in
`[0, 1)`, `fbm` in `[0, 63/64]`, and so does the attenuated `f`. -/
theorem main_output_range (sin sqrt : α → α) (fragCoord : Vec2 α) (time : α)
    (mouse resolution : Vec2 α) (_hw : 0 < resolution.x) (_hh : 0 < resolution.y) :
    (0 ≤ (main sin sqrt fragCoord time mouse resolution).x
      ∧ (main sin sqrt fragCoord time mouse resolution).x ≤ 3)
    ∧ (0 ≤ (main sin sqrt fragCoord time mouse resolution).y
      ∧ (main sin sqrt fragCoord time mouse resolution).y ≤ 3)
    ∧ (0 ≤ (main sin sqrt fragCoord time mouse resolution).z
      ∧ (main sin sqrt fragCoord time mouse resolution).z ≤ 3)
    ∧ (main sin sqrt fragCoord time mouse resolution).w = 1
    ∧ (∀ p : Vec2 α, 0 ≤ random sin p ∧ random sin p < 1)
    ∧ (∀ p : Vec2 α, 0 ≤ noise sin p ∧ noise sin p < 1)
    ∧ (∀ p : Vec2 α, 0 ≤ fbm sin p ∧ fbm sin p ≤ 63 / 64)
    ∧ (0 ≤ main_f sin sqrt fragCoord time mouse resolution
      ∧ main_f sin sqrt fragCoord time mouse resolution ≤ 63 / 64)
    ∧ (∀ (f : α) (q r : Vec2 α),
        (0 ≤ (main_color sqrt f q r).x ∧ (main_color sqrt f q r).x ≤ 1)
        ∧ (0 ≤ (main_color sqrt f q r).y ∧ (main_color sqrt f q r).y ≤ 1)
        ∧ (0 ≤ (main_color sqrt f q r).z ∧ (main_color sqrt f q r).z ≤ 1)) := by
  have hf0 := main_f_nonneg sin sqrt fragCoord time mouse resolution
  have hf1 := main_f_le sin sqrt fragCoord time mouse resolution
  obtain ⟨hm0, hm1⟩ := multiplier_range hf0 hf1
  obtain ⟨hx, hy, hz⟩ := main_color_range sqrt (main_f sin sqrt fragCoord time mouse resolution)
    (main_q sin (main_st fragCoord resolution) time) (main_r sin (main_st fragCoord resolution) time)
  refine ⟨scaled_range hm0 hm1 hx.1 hx.2, scaled_range hm0 hm1 hy.1 hy.2,
    scaled_range hm0 hm1 hz.1 hz.2, ?_, fun p => ⟨random_nonneg sin p, random_lt_one sin p⟩,
    fun p => ⟨noise_nonneg sin p, noise_lt_one sin p⟩, fun p => ⟨fbm_nonneg sin p, fbm_le sin p⟩,
    ⟨hf0, hf1⟩, fun f q r => main_color_range sqrt f q r⟩
  simp only [main]
  norm_num

end ShaderClaims

/-! ## Claims about the shader over the reals -/

section RealClaims

/-- Witness of C8: the shader over the reals at resolution `(800, 600)`, time 0,
pointer `(0, 0)` and the centre pixel `(400, 300)`. -/
theorem main_output_range_witness :
    (0 : ℝ) < 800 ∧ (0 : ℝ) < 600
    ∧ 0 ≤ (main Real.sin Real.sqrt ⟨400, 300⟩ 0 ⟨0, 0⟩ ⟨800, 600⟩).x
    ∧ (main Real.sin Real.sqrt ⟨400, 300⟩ 0 ⟨0, 0⟩ ⟨800, 600⟩).x ≤ 3
    ∧ (main Real.sin Real.sqrt ⟨400, 300⟩ 0 ⟨0, 0⟩ ⟨800, 600⟩).w = 1 :=
  ⟨by norm_num, by norm_num,
   (main_output_range Real.sin Real.sqrt ⟨400, 300⟩ 0 ⟨0, 0⟩ ⟨800, 600⟩
    (by norm_num) (by norm_num)).1.1,
   (main_output_range Real.sin Real.sqrt ⟨400, 300⟩ 0 ⟨0, 0⟩ ⟨800, 600⟩
    (by norm_num) (by norm_num)).1.2,
   (main_output_range Real.sin Real.sqrt ⟨400, 300⟩ 0 ⟨0, 0⟩ ⟨800, 600⟩
    (by norm_num) (by norm_num)).2.2.2.1⟩

/-- C6. `noise` is continuous at integer lattice boundaries, whatever `sin`
is: for all integers `i, j` and every `t` in `[0, 1]`, the interpolation
formula of the cell with lower corner `(i-1, j)` at fractional part `(1, t)`
equals `noise(i, j + t)`, and the formula of the cell with lower corner
`(i, j-1)` at fractional part `(t, 1)` equals `noise(i + t, j)`; at a lattice
point `noise(i, j) = random(i, j)`.  Consequently `noise` is a continuous
function on the real plane: at every point, with or without an integer
coordinate, it has the same limit from every direction. -/
theorem noise_continuous_at_lattice (sin : ℝ → ℝ) :
    (∀ (i j : ℤ) (t : ℝ), 0 ≤ t → t ≤ 1 →
        noiseCell sin ⟨(i : ℝ) - 1, j⟩ ⟨1, t⟩ = noise sin ⟨i, j + t⟩)
    ∧ (∀ (i j : ℤ) (t : ℝ), 0 ≤ t → t ≤ 1 →
        noiseCell sin ⟨i, (j : ℝ) - 1⟩ ⟨t, 1⟩ = noise sin ⟨i + t, j⟩)
    ∧ (∀ i j : ℤ, noise sin ⟨i, j⟩ = random sin ⟨i, j⟩)
    ∧ Continuous (fun p : ℝ × ℝ => noise sin ⟨p.1, p.2⟩)
    ∧ (∀ p : ℝ × ℝ, Filter.Tendsto (fun v : ℝ × ℝ => noise sin ⟨v.1, v.2⟩)
        (nhds p) (nhds (noise sin ⟨p.1, p.2⟩))) := by
  refine ⟨?_, ?_, ?_, noise_continuous sin, fun p => (noise_continuous sin).tendsto p⟩
  · intro i j t h0 h1
    have h := noise_eq_noiseCell_closed sin (i - 1) j (i : ℝ) ((j : ℝ) + t)
      (by push_cast; linarith) (by push_cast; linarith) (by linarith) (by linarith)
    rw [h]
    push_cast
    congr 1
    ext <;> simp only [] <;> ring
  · intro i j t h0 h1
    have h := noise_eq_noiseCell_closed sin i (j - 1) ((i : ℝ) + t) (j : ℝ)
      (by linarith) (by linarith) (by push_cast; linarith) (by push_cast; linarith)
    rw [h]
    push_cast
    congr 1
    ext <;> simp only [] <;> ring
  · intro i j
    have h := noise_eq_noiseCell_closed sin i j (i : ℝ) (j : ℝ) le_rfl (by linarith) le_rfl
      (by linarith)
    rw [h, noiseCell_eq]
    simp only [sub_self]
    ring

/-- Witness of C6: the seam between the cells with lower corners `(2, 5)` and
`(3, 5)`, half-way up. -/
theorem noise_continuous_at_lattice_witness :
    noiseCell Real.sin ⟨3 - 1, 5⟩ ⟨1, 1 / 2⟩ = noise Real.sin ⟨3, 5 + 1 / 2⟩ := by
  have h := (noise_continuous_at_lattice Real.sin).1 3 5 (1 / 2) (by norm_num) (by norm_num)
  norm_num at h ⊢
  exact h

/-- C1, as amended. Pointer term at `dist = 0`: for every pixel, time and
resolution, when the pointer's shader-space position `mousePos = mouse /
resolution` coincides with `st`, then `dist = distance(st, mousePos) = 0`,
`smoothstep(0.0, 0.3, dist) = smoothstep(0.0, 0.3, 0) = 0`, and the value
`f = mix(f0, 0.5 * f0, smoothstep(0.0, 0.3, dist))` that `main` uses afterwards
equals `f0 = fbm(st + r)`: at the pointer the field is not dampened.  The
dampened value `f = 0.5 * f0` is what `main` uses as soon as `dist ≥ 0.3`. -/
theorem pointer_term_at_pointer (sin : ℝ → ℝ) (fragCoord : Vec2 ℝ) (time : ℝ)
    (mouse resolution : Vec2 ℝ)
    (hst : main_mousePos mouse resolution = main_st fragCoord resolution) :
    main_dist Real.sqrt fragCoord mouse resolution = 0
    ∧ smoothstep (0.0 : ℝ) 0.3 0 = 0
    ∧ smoothstep 0.0 0.3 (main_dist Real.sqrt fragCoord mouse resolution) = 0
    ∧ main_f sin Real.sqrt fragCoord time mouse resolution
        = mix (main_f0 sin (main_st fragCoord resolution) time)
            (main_f0 sin (main_st fragCoord resolution) time * 0.5)
            (smoothstep 0.0 0.3 (main_dist Real.sqrt fragCoord mouse resolution))
    ∧ main_f sin Real.sqrt fragCoord time mouse resolution
        = main_f0 sin (main_st fragCoord resolution) time
    ∧ (∀ m : Vec2 ℝ, 0.3 ≤ main_dist Real.sqrt fragCoord m resolution →
        main_f sin Real.sqrt fragCoord time m resolution
          = 0.5 * main_f0 sin (main_st fragCoord resolution) time) := by
  have hd : main_dist Real.sqrt fragCoord mouse resolution = 0 := by
    unfold main_dist
    rw [hst]
    exact distance_self _
  refine ⟨hd, smoothstep_ramp_of_nonpos le_rfl, ?_, rfl, ?_, ?_⟩
  · rw [hd]
    exact smoothstep_ramp_of_nonpos le_rfl
  · unfold main_f
    exact attenuate_of_nonpos _ hd.le
  · intro m hm
    unfold main_f
    exact attenuate_of_le _ hm

/-- Witness of C1 as amended: resolution `(800, 600)`, pixel `(1/2, 1/2)`, time 0
and the pointer at `(2/3, 1/2)`, which the shader maps onto
`st = (1/1200, 1/1200)`. -/
theorem pointer_term_at_pointer_witness :
    main_mousePos (⟨2 / 3, 1 / 2⟩ : Vec2 ℝ) ⟨800, 600⟩ = main_st ⟨1 / 2, 1 / 2⟩ ⟨800, 600⟩
    ∧ main_f Real.sin Real.sqrt ⟨1 / 2, 1 / 2⟩ 0 ⟨2 / 3, 1 / 2⟩ ⟨800, 600⟩
        = main_f0 Real.sin (main_st ⟨1 / 2, 1 / 2⟩ ⟨800, 600⟩) 0 :=
  ⟨by rw [sample_st, sample_mousePos],
   (pointer_term_at_pointer Real.sin ⟨1 / 2, 1 / 2⟩ 0 ⟨2 / 3, 1 / 2⟩ ⟨800, 600⟩
    (by rw [sample_st, sample_mousePos])).2.2.2.2.1⟩

/-- Counterexample to C1 as stated: for the shader over the reals at resolution
`(800, 600)`, pixel `(1/2, 1/2)`, time 0 and pointer `(2/3, 1/2)`, the pointer
coincides with the sample point, `dist = 0`, the field value `f0 = fbm(st + r)`
is not zero, and yet `f` is not different from `f0`. -/
theorem pointer_on_sample_not_dampened :
    main_mousePos (⟨2 / 3, 1 / 2⟩ : Vec2 ℝ) ⟨800, 600⟩ = main_st ⟨1 / 2, 1 / 2⟩ ⟨800, 600⟩
    ∧ main_dist Real.sqrt (⟨1 / 2, 1 / 2⟩ : Vec2 ℝ) ⟨2 / 3, 1 / 2⟩ ⟨800, 600⟩ = 0
    ∧ main_f0 Real.sin (main_st (⟨1 / 2, 1 / 2⟩ : Vec2 ℝ) ⟨800, 600⟩) 0 ≠ 0
    ∧ ¬ (main_f Real.sin Real.sqrt ⟨1 / 2, 1 / 2⟩ 0 ⟨2 / 3, 1 / 2⟩ ⟨800, 600⟩
          ≠ main_f0 Real.sin (main_st (⟨1 / 2, 1 / 2⟩ : Vec2 ℝ) ⟨800, 600⟩) 0) := by
  have hd : main_dist Real.sqrt (⟨1 / 2, 1 / 2⟩ : Vec2 ℝ) ⟨2 / 3, 1 / 2⟩ ⟨800, 600⟩ = 0 := by
    unfold main_dist
    rw [sample_st, sample_mousePos]
    exact distance_self _
  refine ⟨by rw [sample_st, sample_mousePos], hd, ?_, ?_⟩
  · rw [sample_st]
    exact (main_f0_pos_at_sample 0).ne'
  · rw [not_not]
    unfold main_f
    exact attenuate_of_nonpos _ hd.le

/-- C10. The pointer does not influence pixels away from the origin: for every
resolution `(w, h)` with `w ≥ 1` and `h ≥ 1`, every time and every pixel whose
working coordinate `st` has Euclidean norm at least
`0.3 + sqrt(1/w² + 1/h²)`, and any two pointer positions `m1, m2` in
`[-1, 1]²`, the output colour is the same: `dist ≥ 0.3`, so
`smoothstep(0.0, 0.3, dist) = 1` and `f = 0.5 * fbm(st + r)` whatever the
pointer position. -/
theorem pointer_far_no_influence (sin : ℝ → ℝ) (fragCoord : Vec2 ℝ) (time : ℝ)
    (m1 m2 resolution : Vec2 ℝ) (hw : 1 ≤ resolution.x) (hh : 1 ≤ resolution.y)
    (h1 : inNDC m1) (h2 : inNDC m2)
    (hst : 0.3 + Real.sqrt (1 / resolution.x ^ 2 + 1 / resolution.y ^ 2)
      ≤ length Real.sqrt (main_st fragCoord resolution)) :
    main sin Real.sqrt fragCoord time m1 resolution
        = main sin Real.sqrt fragCoord time m2 resolution
    ∧ 0.3 ≤ main_dist Real.sqrt fragCoord m1 resolution
    ∧ smoothstep 0.0 0.3 (main_dist Real.sqrt fragCoord m1 resolution) = 1
    ∧ main_f sin Real.sqrt fragCoord time m1 resolution
        = 0.5 * fbm sin
            ⟨(main_st fragCoord resolution).x + (main_r sin (main_st fragCoord resolution) time).x,
             (main_st fragCoord resolution).y + (main_r sin (main_st fragCoord resolution) time).y⟩ := by
  have d1 := main_dist_far fragCoord m1 resolution h1 hw hh hst
  have d2 := main_dist_far fragCoord m2 resolution h2 hw hh hst
  have f1 : main_f sin Real.sqrt fragCoord time m1 resolution
      = 0.5 * main_f0 sin (main_st fragCoord resolution) time := by
    unfold main_f
    exact attenuate_of_le _ d1
  have f2 : main_f sin Real.sqrt fragCoord time m2 resolution
      = 0.5 * main_f0 sin (main_st fragCoord resolution) time := by
    unfold main_f
    exact attenuate_of_le _ d2
  exact ⟨main_eq_of_main_f_eq sin Real.sqrt fragCoord time m1 m2 resolution (f1.trans f2.symm),
    d1, smoothstep_ramp_of_le d1, f1⟩

/-- Witness of C10: resolution `(800, 600)`, the centre pixel `(400, 300)` with
`|st| = 5/6`, and the pointer in two opposite corners. -/
theorem pointer_far_no_influence_witness :
    (0.3 + Real.sqrt (1 / (800 : ℝ) ^ 2 + 1 / (600 : ℝ) ^ 2)
      ≤ length Real.sqrt (main_st (⟨400, 300⟩ : Vec2 ℝ) ⟨800, 600⟩))
    ∧ main Real.sin Real.sqrt ⟨400, 300⟩ 0 ⟨-1, -1⟩ ⟨800, 600⟩
        = main Real.sin Real.sqrt ⟨400, 300⟩ 0 ⟨1, 1⟩ ⟨800, 600⟩ :=
  ⟨by rw [sample_far_length]; exact sample_far_threshold,
   (pointer_far_no_influence Real.sin ⟨400, 300⟩ 0 ⟨-1, -1⟩ ⟨1, 1⟩ ⟨800, 600⟩
    (by norm_num) (by norm_num) (by simp [inNDC]) (by simp [inNDC])
    (by rw [sample_far_length]; exact sample_far_threshold)).1⟩

end RealClaims

end Ferrofluid
